import Mathlib

/-!
Verification development for the ailoy runtime's language-model operator and
chat-template normalization passes.

The definitions below are shallow embeddings of:
  * the conversation rewrite passes of `src/vm/src/chat_manager.cpp`
    (`remove_tool_call_id`, `put_default_reasoning`, `melt_reasoning`,
    `merge_text_data`, `melt_content_text`, and the pass pipeline inside
    `chat_manager_t::apply_chat_template`);
  * the `tvm_language_model_t` decoder state machine of
    `src/vm/src/tvm/language_model.cpp` (`prefill`, the stream-mode
    re-evaluation inside `decode`, `check_indecator`, `detokenize`) together
    with the chunked prefill loop of `src/v2/cpp/src/language_model.cpp`;
  * the `infer` iterative operator (init and step functions) registered by
    `create_tvm_language_model_component`.

External collaborators (the TVM compute backend, the tokenizer, the xgrammar
matcher and the JSON parser) are abstracted as oracle parameters, following the
collaborator contracts of the specification (spec 6.3): the paged KV cache is
represented by its `total_sequence_length` counter, which `clear` resets to
zero, `popn n` decreases by `n` and each chunked `prefill` forward increases by
the chunk length.
-/

/- ----------------------------------------------------------------------
   Value model.

   Modelled from the spec: the polymorphic value tree (`value_t` with
   `map_t` / `array_t` / `string_t` subclasses) is declared in headers that are
   not part of the source tree; spec 3.1 describes it as a tagged tree whose
   mappings are ordered (insertion order preserved, unique keys) and spec 4.1
   gives the operations, with downcasts that fail on a kind mismatch
   (`downcast-or-fail`).  Only the variants exercised by the chat passes are
   included.  A C++ downcast failure or out-of-range access is an exception;
   all fallible operations therefore return `Except String`.
   ---------------------------------------------------------------------- -/

mutual

inductive JVal where
  | null : JVal
  | bool (b : Bool) : JVal
  | int (n : Int) : JVal
  | str (s : String) : JVal
  | arr (xs : JArr) : JVal
  | obj (fs : JObj) : JVal
  deriving DecidableEq, Repr

inductive JArr where
  | nil : JArr
  | cons (v : JVal) (tl : JArr) : JArr
  deriving DecidableEq, Repr

inductive JObj where
  | nil : JObj
  | cons (k : String) (v : JVal) (tl : JObj) : JObj
  deriving DecidableEq, Repr

end

/-- Build an array value from a Lean list. -/

def JArr.ofList : List JVal → JArr
  | [] => .nil
  | v :: vs => .cons v (JArr.ofList vs)

/-- Flatten an array value to a Lean list. -/

def JArr.toList : JArr → List JVal
  | .nil => []
  | .cons v tl => v :: tl.toList

/-- Build an object (ordered mapping) value from a Lean association list. -/

def JObj.ofList : List (String × JVal) → JObj
  | [] => .nil
  | (k, v) :: fs => .cons k v (JObj.ofList fs)

/-- Flatten an object value to a Lean association list (insertion order). -/

def JObj.toList : JObj → List (String × JVal)
  | .nil => []
  | .cons k v tl => (k, v) :: tl.toList

/-- Shorthand for wrapping a Lean list as an array value. -/

def arrOf (xs : List JVal) : JVal := .arr (JArr.ofList xs)

/-- Shorthand for wrapping a Lean association list as an object value. -/

def objOf (fs : List (String × JVal)) : JVal := .obj (JObj.ofList fs)

/-- First value stored under `k` (`map_t` keys are unique, spec 3.1). -/

def getKey? : List (String × JVal) → String → Option JVal
  | [], _ => none
  | (k, v) :: fs, key => if k = key then some v else getKey? fs key

/-- `map_t::contains`. -/

def containsKey (fs : List (String × JVal)) (key : String) : Bool :=
  (getKey? fs key).isSome

/-- `map_t::insert_or_assign`: assign in place when the key exists, append
otherwise (insertion order preserved, spec 3.1). -/

def insertKA : List (String × JVal) → String → JVal → List (String × JVal)
  | [], key, v => [(key, v)]
  | (k, w) :: fs, key, v => if k = key then (k, v) :: fs else (k, w) :: insertKA fs key v

/-- `map_t::erase` (keys are unique, so erasing the first occurrence suffices). -/

def eraseKey : List (String × JVal) → String → List (String × JVal)
  | [], _ => []
  | (k, w) :: fs, key => if k = key then fs else (k, w) :: eraseKey fs key

/-- Downcast to an array (`as<array_t>` / `at<array_t>` target type), returning
its elements.  Modelled from the spec: downcast-or-fail (spec 4.1). -/

def asArr : JVal → Except String (List JVal)
  | .arr xs => .ok xs.toList
  | _ => .error "downcast to array_t failed"

/-- Downcast to an object, returning its fields.  Modelled from the spec:
downcast-or-fail (spec 4.1). -/

def asObjFields : JVal → Except String (List (String × JVal))
  | .obj fs => .ok fs.toList
  | _ => .error "downcast to map_t failed"

/-- Downcast to a string.  Modelled from the spec: downcast-or-fail (spec 4.1). -/

def asStr : JVal → Except String String
  | .str s => .ok s
  | _ => .error "downcast to string_t failed"

/-- `map_t::at(key)`: throws when the key is absent. -/

def objAt (fs : List (String × JVal)) (key : String) : Except String JVal :=
  match getKey? fs key with
  | some v => .ok v
  | none => .error "map_t::at: no such key"

/-- `map_t::at<string_t>(key)`. -/

def objAtStr (fs : List (String × JVal)) (key : String) : Except String String := do
  let v ← objAt fs key
  asStr v

/-- `map_t::at<array_t>(key)`. -/

def objAtArr (fs : List (String × JVal)) (key : String) : Except String (List JVal) := do
  let v ← objAt fs key
  asArr v

/-- Sequential `Except`-valued map over a message list (the per-message loops
of the chat passes; the first exception aborts the whole pass). -/

def mapExcept (f : JVal → Except String JVal) : List JVal → Except String (List JVal)
  | [] => .ok []
  | m :: ms => do
    let m' ← f m
    let ms' ← mapExcept f ms
    .ok (m' :: ms')

/-- Decidable equality for `Except` results, so concrete pass outputs can be
settled by `decide`. -/

instance exceptDecEq {ε α : Type} [DecidableEq ε] [DecidableEq α] : DecidableEq (Except ε α) := fun
  | .error e, .error e' =>
    if h : e = e' then .isTrue (by rw [h]) else .isFalse (by intro c; injection c; exact h (by assumption))
  | .error _, .ok _ => .isFalse (by intro c; injection c)
  | .ok _, .error _ => .isFalse (by intro c; injection c)
  | .ok a, .ok a' =>
    if h : a = a' then .isTrue (by rw [h]) else .isFalse (by intro c; injection c; exact h (by assumption))

/-- Per-message body of `remove_tool_call_id` (`chat_manager.cpp:107-134`):
drop `id` from each entry of an assistant message's `tool_calls`, drop
`tool_call_id` from each entry of a tool message's `content`. -/

def remove_tool_call_id_msg (m : JVal) : Except String JVal := do
  let msg ← asObjFields m
  let role ← objAtStr msg "role"
  if role = "assistant" then
    if ¬ containsKey msg "tool_calls" then
      .ok (objOf msg)
    else do
      let tcs ← objAtArr msg "tool_calls"
      let tcs' ← mapExcept (fun tc => do
        let tco ← asObjFields tc
        .ok (objOf (eraseKey tco "id"))) tcs
      .ok (objOf (insertKA msg "tool_calls" (arrOf tcs')))
  else if role = "tool" then
    if ¬ containsKey msg "content" then
      .ok (objOf msg)
    else do
      let cs ← objAtArr msg "content"
      let cs' ← mapExcept (fun c => do
        let co ← asObjFields c
        .ok (objOf (eraseKey co "tool_call_id"))) cs
      .ok (objOf (insertKA msg "content" (arrOf cs')))
  else
    .ok (objOf msg)

/-- `remove_tool_call_id` (`chat_manager.cpp:107-134`). -/

def remove_tool_call_id (conv : JVal) : Except String JVal := do
  let msgs ← asArr conv
  let msgs' ← mapExcept remove_tool_call_id_msg msgs
  .ok (arrOf msgs')

/-- The default reasoning entry `put_default_reasoning` builds
(`chat_manager.cpp:147-151`): a one-element array holding a text part whose
text is the `content` argument (`"\n\n"` at the call site). -/

def default_reasoning_value (content : String) : JVal :=
  arrOf [objOf [("type", .str "text"), ("text", .str content)]]

/-- Per-message body of `put_default_reasoning` (`chat_manager.cpp:136-156`):
on an assistant message that carries `content` or `tool_calls` but no
`reasoning`, install the default reasoning entry; all other messages are left
unchanged.  The `enable_reasoning` flag is not consulted anywhere in this
pass. -/

def put_default_reasoning_msg (content : String) (m : JVal) : Except String JVal := do
  let msg ← asObjFields m
  let role ← objAtStr msg "role"
  if role ≠ "assistant" then
    .ok (objOf msg)
  else if (containsKey msg "content" || containsKey msg "tool_calls")
      && ¬ containsKey msg "reasoning" then
    .ok (objOf (insertKA msg "reasoning" (default_reasoning_value content)))
  else
    .ok (objOf msg)

/-- `put_default_reasoning` (`chat_manager.cpp:136-156`). -/

def put_default_reasoning (conv : JVal) (content : String) : Except String JVal := do
  let msgs ← asArr conv
  let msgs' ← mapExcept (put_default_reasoning_msg content) msgs
  .ok (arrOf msgs')

/-- A single text part `obj [type ↦ "text", text ↦ s]`, the shape built by
`melt_reasoning` for the reasoning entry (`chat_manager.cpp:183-185`). -/

def textEntry (s : String) : JVal :=
  objOf [("type", .str "text"), ("text", .str s)]

/-- Per-message body of `melt_reasoning` (`chat_manager.cpp:158-203`): rebuild
the message with every field except `reasoning` and `content`, wrap the
reasoning text (empty when absent) in the delimiters, and prepend it as a text
part to the (possibly fresh) content array. -/

def melt_reasoning_msg (bor_delimiter eor_delimiter : String) (m : JVal) :
    Except String JVal := do
  let msg ← asObjFields m
  let others := msg.filter (fun p => p.1 ≠ "reasoning" && p.1 ≠ "content")
  let reasoning_str ←
    if containsKey msg "reasoning" then do
      let r ← objAtArr msg "reasoning"
      let r0 ← match r.head? with
        | some v => asObjFields v
        | none => .error "array_t::at: index out of range"
      let txt ← objAtStr r0 "text"
      pure (bor_delimiter ++ txt ++ eor_delimiter)
    else
      pure ""
  let content0 ←
    match getKey? msg "content" with
    | some c => pure c
    | none => pure (arrOf [])
  let carr ← asArr content0
  .ok (objOf (insertKA others "content" (arrOf (textEntry reasoning_str :: carr))))

/-- `melt_reasoning` (`chat_manager.cpp:158-203`). -/

def melt_reasoning (conv : JVal) (bor_delimiter eor_delimiter : String) :
    Except String JVal := do
  let msgs ← asArr conv
  let msgs' ← mapExcept (melt_reasoning_msg bor_delimiter eor_delimiter) msgs
  .ok (arrOf msgs')

/-- Inner loop of `merge_text_data` over one content/reasoning array
(`chat_manager.cpp:218-230`).  `acc` is the already-built `content_new` in
reverse order (its head is the most recently pushed entry, the C++
`content_new->rbegin()`).  Two consecutive text parts are merged by appending
the second text to the first; `&&` short-circuits, so the second entry's
`type` is only read when the first one is `"text"`. -/

def merge_entries_go : List JVal → List JVal → Except String (List JVal)
  | acc, [] => .ok acc.reverse
  | acc, d :: ds => do
    let dm ← asObjFields d
    match acc with
    | [] => merge_entries_go [objOf dm] ds
    | last :: accRest => do
      let lastf ← asObjFields last
      let lt ← objAtStr lastf "type"
      if lt = "text" then do
        let dt ← objAtStr dm "type"
        if dt = "text" then do
          let ltext ← objAtStr lastf "text"
          let dtext ← objAtStr dm "text"
          merge_entries_go (objOf (insertKA lastf "text" (.str (ltext ++ dtext))) :: accRest) ds
        else
          merge_entries_go (objOf dm :: last :: accRest) ds
      else
        merge_entries_go (objOf dm :: last :: accRest) ds

/-- One key (`content` or `reasoning`) of one message in `merge_text_data`. -/

def merge_key (msg : List (String × JVal)) (key : String) :
    Except String (List (String × JVal)) :=
  if ¬ containsKey msg key then .ok msg
  else do
    let content ← objAtArr msg key
    let content' ← merge_entries_go [] content
    .ok (insertKA msg key (arrOf content'))

/-- Per-message body of `merge_text_data` (`chat_manager.cpp:205-235`): the
source iterates the keys in the order `content`, `reasoning`. -/

def merge_text_data_msg (m : JVal) : Except String JVal := do
  let msg ← asObjFields m
  let msg1 ← merge_key msg "content"
  let msg2 ← merge_key msg1 "reasoning"
  .ok (objOf msg2)

/-- `merge_text_data` (`chat_manager.cpp:205-235`).  The `delimiter` parameter
exists in the C++ signature (defaulted to `""`) but is never used by the
body. -/

def merge_text_data (conv : JVal) (_delimiter : String) : Except String JVal := do
  let msgs ← asArr conv
  let msgs' ← mapExcept merge_text_data_msg msgs
  .ok (arrOf msgs')

/-- Per-message body of `melt_content_text` (`chat_manager.cpp:237-263`):
messages without a content array are skipped; a content array whose length is
not exactly 1 raises `content length != 1`; a single text part is collapsed to
a bare string. -/

def melt_content_text_msg (m : JVal) : Except String JVal := do
  let msg ← asObjFields m
  match getKey? msg "content" with
  | some (.arr content) =>
    let cs := content.toList
    if cs.length ≠ 1 then
      .error "content length != 1"
    else
      match cs.head? with
      | some (.obj c0) =>
        let c0f := c0.toList
        if ¬ containsKey c0f "type" then
          .ok (objOf msg)
        else do
          let ctype ← objAtStr c0f "type"
          if ctype = "text" then
            if ¬ containsKey c0f "text" then
              .ok (objOf msg)
            else do
              let t ← objAtStr c0f "text"
              .ok (objOf (insertKA msg "content" (.str t)))
          else
            .ok (objOf msg)
      | _ => .ok (objOf msg)
  | _ => .ok (objOf msg)

/-- `melt_content_text` (`chat_manager.cpp:237-263`). -/

def melt_content_text (conv : JVal) : Except String JVal := do
  let msgs ← asArr conv
  let msgs' ← mapExcept melt_content_text_msg msgs
  .ok (arrOf msgs')

/-- The normalization pipeline run by `chat_manager_t::apply_chat_template`
(`chat_manager.cpp:61-95`) before rendering: the five rewrites in source
order, with the source's call-site arguments.  The `reasoning` flag only
toggles `enable_thinking` in the render context (`chat_manager.cpp:82-84`);
none of the rewrite passes consults it. -/

def chat_normalize (conversation : JVal) (_reasoning : Bool) : Except String JVal := do
  let c1 ← remove_tool_call_id conversation
  let c2 ← put_default_reasoning c1 "\n\n"
  let c3 ← melt_reasoning c2 "<think>" "</think>\n\n"
  let c4 ← merge_text_data c3 ""
  melt_content_text c4

/-- Token ids are C `int32_t` values; no arithmetic is ever performed on them,
so they are modelled as `Int`. -/

abbrev Tok := Int

/-- Length of the longest common prefix of the stored history and the incoming
token sequence (`language_model.cpp:291-297`). -/

def lcpLen : List Tok → List Tok → Nat
  | h :: hs, t :: ts => if h = t then lcpLen hs ts + 1 else 0
  | _, _ => 0

/-- The fixed KV-cache page size (`language_model.cpp:29`). -/

def page_size : Nat := 16

/-- Chunk contents fed by the chunked prefill loop of
`src/vm/src/tvm/language_model.cpp:316-339`.  `full` is the whole remainder
`new_tokens`; `rem` is `new_tokens` with the first `i` entries dropped; the
chunk length is `j - i = min prefill_chunk_size rem.length`.  The source
copies, for every chunk, `new_tokens.size() * sizeof(int32_t)` bytes starting
at `new_tokens.data()` into the chunk buffer of `length` elements
(`language_model.cpp:326`), so the buffer receives the first `length` entries
of the whole remainder — `full.take length` — and not the slice `i..j`.
`fuel` bounds the number of loop iterations; `rem.length` suffices whenever
the chunk size is positive (with a zero chunk size the C++ loop would not
terminate at all). -/

def prefill_chunks_vm_go : Nat → List Tok → List Tok → Nat → List (List Tok)
  | 0, _, _, _ => []
  | fuel + 1, full, rem, pcs =>
    if rem = [] then []
    else full.take (min pcs rem.length) :: prefill_chunks_vm_go fuel full (rem.drop pcs) pcs

/-- Chunks fed to the backend by `tvm_language_model_t::prefill` in
`src/vm/src/tvm/language_model.cpp`. -/

def prefill_chunks_vm (new_tokens : List Tok) (prefill_chunk_size : Nat) : List (List Tok) :=
  prefill_chunks_vm_go new_tokens.length new_tokens new_tokens prefill_chunk_size

/-- The same loop as written in `src/v2/cpp/src/language_model.cpp:150-172`,
which copies `length * sizeof(int32_t)` bytes from `new_tokens.begin() + i`
(`language_model.cpp:160` of the v2 file): chunk `i..j` carries exactly the
slice `rem.take (min prefill_chunk_size rem.length)`. -/

def prefill_chunks_v2_go : Nat → List Tok → Nat → List (List Tok)
  | 0, _, _ => []
  | fuel + 1, rem, pcs =>
    if rem = [] then []
    else rem.take (min pcs rem.length) :: prefill_chunks_v2_go fuel (rem.drop pcs) pcs

/-- Chunks fed to the backend by `tvm_language_model_t::prefill` in
`src/v2/cpp/src/language_model.cpp`. -/

def prefill_chunks_v2 (new_tokens : List Tok) (prefill_chunk_size : Nat) : List (List Tok) :=
  prefill_chunks_v2_go new_tokens.length new_tokens prefill_chunk_size

/-- Persistent decoder state touched by `prefill`: the stored token history,
the backend KV cache abstracted by its `total_sequence_length` counter
(spec 6.3), and `current_stream_mode_`. -/

structure LMState where
  history : List Tok
  kvTotal : Nat
  streamMode : String
  deriving DecidableEq, Repr

/-- The two exceptions `prefill` can raise (`language_model.cpp:285,311`). -/

inductive PrefillErr where
  | emptyTokens
  | contextLengthLimit
  deriving DecidableEq, Repr

/-- `tvm_language_model_t::prefill` (`src/vm/src/tvm/language_model.cpp:283-350`).

`pages` is the value the backend reports for `get_num_available_pages()` after
the rewind, and `pcs` the metadata's `prefill_chunk_size`.  On success the
result carries the new state, the returned starting token, and the chunk
contents fed to the backend.  Note the early return at line 306-307: when no
new tokens remain past the common prefix, the function returns the last
element of the OLD history without updating `history_` and without resetting
the stream mode. -/

def prefill (pages pcs : Nat) (st : LMState) (tokens : List Tok) :
    Except PrefillErr (LMState × Tok × List (List Tok)) :=
  if tokens = [] then .error .emptyTokens
  else
    -- line 288-289: make sure that kv-cache and history are in sync
    let st1 : LMState :=
      if st.kvTotal ≠ st.history.length then { st with history := [], kvTotal := 0 } else st
    let lcp := lcpLen st1.history tokens
    -- line 300-302: rewind the head of the kv-cache to the LCP (`popn`)
    let st2 : LMState :=
      if lcp < st1.history.length then
        { st1 with kvTotal := st1.kvTotal - (st1.history.length - lcp) }
      else st1
    let new_tokens := tokens.drop lcp
    if new_tokens = [] then
      -- line 306-307: `return *history_.rbegin();` — `history_` is nonempty
      -- here because `tokens` is a nonempty prefix of it
      .ok (st2, st2.history.getLastD 0, [])
    else if pages * page_size ≤ new_tokens.length then
      -- line 310-311: `new_tokens.size() >= num_available_pages * page_size`
      .error .contextLengthLimit
    else
      let chunks := prefill_chunks_vm new_tokens pcs
      -- lines 336-338: one `begin_forward(length)` / `prefill` / `end_forward`
      -- per chunk, each growing `total_sequence_length` by the chunk length;
      -- lines 342-349: update the history, reset the stream mode, and return
      -- the last new token
      .ok ({ history := tokens,
             kvTotal := st2.kvTotal + (chunks.map List.length).sum,
             streamMode := "output_text" },
           new_tokens.getLastD 0, chunks)

/-- The per-run values the init function stores into the operator state
(`language_model.cpp:766-771`). -/

structure InferState where
  current_token : Tok
  finish_reason : String
  ignore_reasoning_messages : Bool
  deriving DecidableEq, Repr

/-- The prefill part of the `infer` init function
(`language_model.cpp:755-771`): a `context_length_limit` exception is turned
into `current_token = -1`, `finish_reason = "length"`; the empty-token
exception propagates. -/

def infer_init (pages pcs : Nat) (st : LMState) (tokens : List Tok) (ign : Bool) :
    Except PrefillErr InferState :=
  match prefill pages pcs st tokens with
  | .ok (_, tok, _) => .ok ⟨tok, "stop", ign⟩
  | .error .contextLengthLimit => .ok ⟨-1, "length", ign⟩
  | .error e => .error e

/-- The marker-token configuration consulted by the step function: `is_eos`,
`is_botc` and `is_eotc` compare the detokenized string against the chat
template config's `eos_token`, `botc_token` and `eotc_token`
(`language_model.cpp:254-276`, `chat_manager.hpp`); `is_bor` / `is_eor`
compare against the literals `<think>` / `</think>`
(`language_model.cpp:238-252`). -/

structure StepCfg where
  eos : String
  botc : String
  eotc : String

/-- What one step-loop iteration decides after the detokenized string is
available (`language_model.cpp:819-866`): either continue the inner loop with
an updated aggregator and stored finish reason, or return an output. -/

structure StepOut where
  message : JVal
  finishReason : Option String
  finished : Bool
  deriving DecidableEq, Repr

/-- `insert_to_delta` (`language_model.cpp:801-809`): store under `key` a
one-element array holding `obj [type ↦ datatype, datatype ↦ data]`. -/

def insert_to_delta (delta : List (String × JVal)) (key datatype : String) (data : JVal) :
    List (String × JVal) :=
  insertKA delta key (arrOf [objOf [("type", .str datatype), (datatype, data)]])

/-- Result of one inner-loop iteration body. -/

inductive StepRes where
  | next (agg : String) (finish_reason : String)
  | emit (out : StepOut)
  deriving DecidableEq, Repr

/-- Body of one iteration of the step function's inner loop, after `decode`
and a successful `detokenize` (`language_model.cpp:819-866`).  `mode` is the
model's `current_stream_mode` at this iteration, `tok_str` the detokenized
string, `agg` the local tool-call aggregator, `fr` the finish reason stored in
the operator state, and `delta` the response delta built so far (always empty
until a return, since the source only inserts immediately before
returning). -/

def step_iter (parse : String → Option JVal) (cfg : StepCfg) (ignore_reasoning : Bool)
    (mode tok_str agg fr : String) (delta : List (String × JVal)) : StepRes :=
  if mode = "tool_call" then
    -- lines 819-826
    if tok_str = cfg.botc then .next agg "tool_calls"
    else .next (agg ++ tok_str) fr
  else if mode = "reasoning" then
    -- lines 827-835
    if ignore_reasoning then .next agg fr
    else if tok_str = "<think>" then .next agg fr
    else .emit ⟨objOf (insert_to_delta delta "reasoning" "text" (.str tok_str)), none, false⟩
  else
    -- lines 836-865 (default mode)
    if tok_str = cfg.eos then
      .emit ⟨objOf delta, some fr, true⟩
    else if tok_str = cfg.eotc then
      match parse agg with
      | some decoded =>
        .emit ⟨objOf (insert_to_delta delta "tool_calls" "function" decoded), none, false⟩
      | none =>
        .emit ⟨objOf (insert_to_delta delta "error" "text" (.str "Invalid tool_call created")),
               some "invalid_tool_call", true⟩
    else if tok_str = "</think>" then .next agg fr
    else .emit ⟨objOf (insert_to_delta delta "content" "text" (.str tok_str)), none, false⟩

/-- One observable event of the inner loop: the stream mode at that iteration
together with the `detokenize` result for the sampled token (`none` while the
UTF-8 codepoint is incomplete), or a `context_length_limit` raised by
`decode`.  Decoding, sampling and the mode re-evaluation live in the backend
and in `tvm_language_model_t::decode`; the step function only observes this
trace. -/

inductive StepEvent where
  | tok (mode : String) (s : Option String)
  | ctxLimit

/-- The step function's inner loop (`language_model.cpp:810-871`) driven by an
event trace: a `none` detokenization just continues (lines 816-817); a
`context_length_limit` from `decode` returns a finished `length` output
(lines 868-871); otherwise `step_iter` decides.  Returns `none` when the trace
is exhausted (the source would keep looping). -/

def run_step (parse : String → Option JVal) (cfg : StepCfg) (ign : Bool) :
    List StepEvent → String → String → List (String × JVal) → Option StepOut
  | [], _, _, _ => none
  | .ctxLimit :: _, _, _, delta =>
    some ⟨objOf delta, some "length", true⟩
  | .tok _ none :: rest, agg, fr, delta => run_step parse cfg ign rest agg fr delta
  | .tok mode (some s) :: rest, agg, fr, delta =>
    match step_iter parse cfg ign mode s agg fr delta with
    | .next agg' fr' => run_step parse cfg ign rest agg' fr' delta
    | .emit out => some out

/-- The whole step function (`language_model.cpp:776-871`).  When the stored
`current_token` is negative — the init function caught `context_length_limit`
— the step immediately returns a finished output whose message map is empty
and whose finish reason is the stored one; `finish_reason` is always present
in the state after init, so the `Unknown error` branch is unreachable.
Otherwise the inner loop runs with a fresh empty aggregator and delta. -/

def step_fn (parse : String → Option JVal) (cfg : StepCfg) (ist : InferState)
    (trace : List StepEvent) : Option StepOut :=
  if ist.current_token < 0 then
    some ⟨objOf [], some ist.finish_reason, true⟩
  else
    run_step parse cfg ist.ignore_reasoning_messages trace "" ist.finish_reason []

/-- One registered stream mode (`tvm_language_model_t::stream_mode_t`).
`grammar` records whether a grammar object is set; a live matcher is recorded
by the close-indicator token sequence it was primed with (the xgrammar state
itself is external). -/

structure stream_mode_t where
  open_indicator : List Tok
  close_indicator : List Tok
  grammar : Bool
  matcher : Option (List Tok)
  deriving DecidableEq, Repr

/-- The `stream_mode_t` constructor (`language_model.cpp:143-148`): encode the
two indicator strings with the model's tokenizer (passed as the oracle `enc`);
grammar and matcher pointers start out null. -/

def mk_stream_mode (enc : String → List Tok) (open_s close_s : String) : stream_mode_t :=
  ⟨enc open_s, enc close_s, false, none⟩

/-- The reverse-iterator comparison loop of `check_indecator`
(`language_model.cpp:157-164`): walk both reversed sequences, fail on the
first mismatch, succeed when either side is exhausted. -/

def rev_match : List Tok → List Tok → Bool
  | x :: xs, y :: ys => if x = y then rev_match xs ys else false
  | _, _ => true

/-- `stream_mode_t::check_indecator` (`language_model.cpp:150-166`) applied to
a chosen indicator sequence: false when the history is shorter than the
indicator, otherwise the reverse comparison. -/

def check_indecator (indicator history : List Tok) : Bool :=
  if history.length < indicator.length then false
  else rev_match history.reverse indicator.reverse

/-- The stream-mode re-evaluation at the end of `decode`
(`language_model.cpp:430-453`), operating on the mode table in its iteration
order.  In the `output_text` branch the source iterates with
`for (auto [name, mode] : stream_modes_)` — each entry is a COPY, so the
write `mode.matcher = create<grammar_matcher_t>(...)` at line 440 lands on
the loop-local copy and is discarded: the stored table is returned unchanged
and only `current_stream_mode_` is updated.  In the non-text branch
`stream_modes_.at(...)` addresses the real table, so clearing the matcher does
take effect; `.at` on a missing current mode throws (`none` here). -/

def decode_update_stream_mode (cur : String) (modes : List (String × stream_mode_t))
    (hist : List Tok) : Option (String × List (String × stream_mode_t)) :=
  if cur = "output_text" then
    match modes.find? (fun p => decide (p.1 ≠ "output_text")
        && check_indecator p.2.open_indicator hist) with
    | some (name, _) => some (name, modes)
    | none => some (cur, modes)
  else
    match modes.find? (fun p => p.1 = cur) with
    | none => none
    | some (_, m) =>
      if check_indecator m.close_indicator hist then
        some ("output_text",
          if m.grammar then
            modes.map (fun p => if p.1 = cur then (p.1, { p.2 with matcher := none }) else p)
          else modes)
      else some (cur, modes)

/-- `tvm_language_model_t::get_current_grammar_matcher`
(`language_model.cpp:489-493`): look the current mode up in the table and
return its stored matcher (the local `auto` copy shares the matcher
pointer). -/

def get_current_grammar_matcher (cur : String) (modes : List (String × stream_mode_t)) :
    Option (List Tok) :=
  match modes.find? (fun p => p.1 = cur) with
  | some (_, m) => m.matcher
  | none => none

/-- `tvm_language_model_t::detokenize`: push the token onto `output_stream_`,
decode the pending stream with the tokenizer oracle `dec`; when the decoded
string ends with the Unicode replacement character keep the buffer and return
nothing, otherwise clear the buffer and return the string.  The result pairs
the new `output_stream_` with the optional string. -/

def detokenize (dec : List Tok → String) (output_stream : List Tok) (token : Tok) :
    List Tok × Option String :=
  let s := output_stream ++ [token]
  let str := dec s
  if str.endsWith "�" then (s, none)
  else ([], some str)

/-- Run `detokenize` over a whole token sequence, collecting for every
returned string the buffer content that produced it.  Returns the list of
(flushed token group, returned string) pairs and the final pending buffer. -/

def detok_run (dec : List Tok → String) (stream : List Tok) :
    List Tok → List (List Tok × String) × List Tok
  | [] => ([], stream)
  | t :: ts =>
    match detokenize dec stream t with
    | (s', none) => detok_run dec s' ts
    | (_, some str) =>
      let r := detok_run dec [] ts
      ((stream ++ [t], str) :: r.1, r.2)

def cfg0 : StepCfg := ⟨"<eos>", "<tc>", "</tc>"⟩

def parse0 : String → Option JVal := fun s => if s = "ok" then some .null else none

def dec0 : List Tok → String := fun ts => if ts.length < 2 then "�" else "ab"

def tcmode0 : stream_mode_t := ⟨[], [8], false, none⟩

def msg_wf (m : JVal) : Bool :=
  match m with
  | .obj fs =>
    match getKey? fs.toList "role" with
    | some (.str _) => true
    | _ => false
  | _ => false

def pdr_step (content : String) (m : JVal) : JVal :=
  match m with
  | .obj fs =>
    let msg := fs.toList
    match getKey? msg "role" with
    | some (.str role) =>
      if role = "assistant"
          && ((containsKey msg "content" || containsKey msg "tool_calls")
              && ! containsKey msg "reasoning") then
        objOf (insertKA msg "reasoning" (default_reasoning_value content))
      else m
    | _ => m
  | _ => m

def conv0 : JVal :=
  arrOf [objOf [("role", .str "assistant"), ("content", arrOf [textEntry "hi"])]]

/-- Shape of every message produced by `melt_reasoning`: an object whose
`content` is an array whose first element is a text part. -/

def melted_shape (m : JVal) : Prop :=
  ∃ (fields : List (String × JVal)) (s : String) (rest : List JVal),
    m = objOf fields ∧ getKey? fields "content" = some (arrOf (textEntry s :: rest))

/-- The message has a content array whose length is not exactly 1. -/

def has_multipart (m : JVal) : Bool :=
  match m with
  | .obj fs =>
    match getKey? fs.toList "content" with
    | some (.arr cs) => decide (cs.toList.length ≠ 1)
    | _ => false
  | _ => false

/-- Some message of the conversation has a content array whose length is not
exactly 1. -/

def has_multipart_conv (v : JVal) : Bool :=
  match v with
  | .arr ms => ms.toList.any has_multipart
  | _ => false

def imgEntry : JVal := objOf [("type", .str "image"), ("image", .str "x")]

def conv_bad : JVal :=
  arrOf [objOf [("role", .str "user"), ("content", arrOf [textEntry "hi", imgEntry])]]

def c3bad : JVal :=
  arrOf [objOf [("role", .str "user"),
    ("content", arrOf [textEntry "", textEntry "hi", imgEntry])]]

def c4bad : JVal :=
  arrOf [objOf [("role", .str "user"), ("content", arrOf [textEntry "hi", imgEntry])]]

/- ----------------------------------------------------------------------
   Theorems.
   ---------------------------------------------------------------------- -/

@[simp] theorem jarr_toList_ofList (xs : List JVal) : (JArr.ofList xs).toList = xs := by
  induction xs with
  | nil => rfl
  | cons v vs ih => simp [JArr.ofList, JArr.toList, ih]

@[simp] theorem jobj_toList_ofList (fs : List (String × JVal)) : (JObj.ofList fs).toList = fs := by
  induction fs with
  | nil => rfl
  | cons f fs ih => cases f; simp [JObj.ofList, JObj.toList, ih]

theorem lcpLen_le_left (h : List Tok) : ∀ t, lcpLen h t ≤ h.length := by
  induction h with
  | nil => intro t; cases t <;> simp [lcpLen]
  | cons x xs ih =>
    intro t
    cases t with
    | nil => simp [lcpLen]
    | cons y ys =>
      by_cases hxy : x = y
      · simpa [lcpLen, hxy] using ih ys
      · simp [lcpLen, hxy]

theorem lcpLen_le_right (h : List Tok) : ∀ t, lcpLen h t ≤ t.length := by
  induction h with
  | nil => intro t; cases t <;> simp [lcpLen]
  | cons x xs ih =>
    intro t
    cases t with
    | nil => simp [lcpLen]
    | cons y ys =>
      by_cases hxy : x = y
      · simpa [lcpLen, hxy] using ih ys
      · simp [lcpLen, hxy]

theorem lcpLen_eq_right_iff (h : List Tok) :
    ∀ t, lcpLen h t = t.length ↔ t <+: h := by
  induction h with
  | nil =>
    intro t
    cases t with
    | nil => simp [lcpLen]
    | cons y ys => simp [lcpLen]
  | cons x xs ih =>
    intro t
    cases t with
    | nil => simp [lcpLen]
    | cons y ys =>
      by_cases hxy : x = y
      · subst hxy
        simp [lcpLen, List.cons_prefix_cons, ih ys]
      · simp only [lcpLen, hxy, if_false, List.cons_prefix_cons, List.length_cons]
        constructor
        · intro heq; exact absurd heq.symm (Nat.succ_ne_zero _)
        · rintro ⟨h1, -⟩; exact absurd h1.symm hxy

theorem prefill_chunks_vm_go_sum (pcs : Nat) (hp : 0 < pcs) :
    ∀ (fuel : Nat) (full rem : List Tok), rem.length ≤ fuel → rem.length ≤ full.length →
      ((prefill_chunks_vm_go fuel full rem pcs).map List.length).sum = rem.length := by
  intro fuel
  induction fuel with
  | zero =>
    intro full rem hf _
    have : rem = [] := List.eq_nil_of_length_eq_zero (Nat.le_zero.mp hf)
    simp [prefill_chunks_vm_go, this]
  | succ n ih =>
    intro full rem hf hfull
    by_cases hrem : rem = []
    · simp [prefill_chunks_vm_go, hrem]
    · have hpos : 0 < rem.length := List.length_pos.mpr hrem
      have hdrop_len : (rem.drop pcs).length = rem.length - pcs := List.length_drop pcs rem
      have h1 : (rem.drop pcs).length ≤ n := by omega
      have h2 : (rem.drop pcs).length ≤ full.length := by omega
      have htake : (full.take (min pcs rem.length)).length = min pcs rem.length := by
        rw [List.length_take]
        omega
      rw [show prefill_chunks_vm_go (n + 1) full rem pcs
            = full.take (min pcs rem.length) :: prefill_chunks_vm_go n full (rem.drop pcs) pcs
          from by simp [prefill_chunks_vm_go, hrem]]
      rw [List.map_cons, List.sum_cons, ih full (rem.drop pcs) h1 h2, htake]
      omega

theorem prefill_chunks_vm_sum (pcs : Nat) (hp : 0 < pcs) (ts : List Tok) :
    ((prefill_chunks_vm ts pcs).map List.length).sum = ts.length :=
  prefill_chunks_vm_go_sum pcs hp ts.length ts ts (Nat.le_refl _) (Nat.le_refl _)

theorem getLastD_default_irrel (l : List Tok) (hne : l ≠ []) (d d' : Tok) :
    l.getLastD d = l.getLastD d' := by
  cases l with
  | nil => exact absurd rfl hne
  | cons x xs => rw [List.getLastD_cons, List.getLastD_cons]

theorem getLastD_drop (l : List Tok) (n : Nat) (hne : l.drop n ≠ []) :
    (l.drop n).getLastD 0 = l.getLastD 0 := by
  induction l generalizing n with
  | nil => simp at hne
  | cons x xs ih =>
    cases n with
    | zero => simp
    | succ m =>
      have hd : (x :: xs).drop (m + 1) = xs.drop m := rfl
      rw [hd] at hne ⊢
      have hxs : xs ≠ [] := by
        intro h; rw [h] at hne; simp at hne
      rw [ih m hne, List.getLastD_cons, getLastD_default_irrel xs hxs x 0]

theorem prefill_sync_covered (pages pcs : Nat) (st : LMState) (tokens : List Tok)
    (hne : tokens ≠ []) (hsync : st.kvTotal = st.history.length)
    (hpre : tokens <+: st.history) :
    prefill pages pcs st tokens =
      .ok ({ st with kvTotal := tokens.length }, st.history.getLastD 0, []) := by
  have hlcp : lcpLen st.history tokens = tokens.length := (lcpLen_eq_right_iff _ _).mpr hpre
  have hdrop : tokens.drop (lcpLen st.history tokens) = [] := by rw [hlcp]; simp
  have hlen : tokens.length ≤ st.history.length := hpre.length_le
  obtain ⟨hist, kv, mode⟩ := st
  simp only at hsync hlcp hlen
  by_cases hlt : tokens.length < hist.length
  · simp [prefill, hne, hsync, hlcp, hlt, List.drop_length]
    omega
  · simp [prefill, hne, hsync, hlcp, hlt, List.drop_length]
    omega

theorem prefill_sync_feed (pages pcs : Nat) (st : LMState) (tokens : List Tok)
    (hne : tokens ≠ []) (hsync : st.kvTotal = st.history.length)
    (hnpre : ¬ tokens <+: st.history) :
    prefill pages pcs st tokens =
      (if pages * page_size ≤ (tokens.drop (lcpLen st.history tokens)).length then
        .error .contextLengthLimit
      else
        .ok ({ history := tokens,
               kvTotal := lcpLen st.history tokens
                 + ((prefill_chunks_vm (tokens.drop (lcpLen st.history tokens)) pcs).map
                     List.length).sum,
               streamMode := "output_text" },
             (tokens.drop (lcpLen st.history tokens)).getLastD 0,
             prefill_chunks_vm (tokens.drop (lcpLen st.history tokens)) pcs)) := by
  have hlcp_lt : lcpLen st.history tokens < tokens.length := by
    have hle := lcpLen_le_right st.history tokens
    rcases Nat.lt_or_ge (lcpLen st.history tokens) tokens.length with h | h
    · exact h
    · exact absurd ((lcpLen_eq_right_iff _ _).mp (Nat.le_antisymm hle h)) hnpre
  have hdrop : tokens.drop (lcpLen st.history tokens) ≠ [] := by
    intro h
    have := List.drop_eq_nil_iff.mp h
    omega
  have hlcp_le : lcpLen st.history tokens ≤ st.history.length := lcpLen_le_left _ _
  by_cases hlt : lcpLen st.history tokens < st.history.length
  · simp only [prefill, if_neg hne, hsync, ne_eq, not_true_eq_false, if_false,
      if_pos hlt, if_neg hdrop]
    have h2 : st.history.length - (st.history.length - lcpLen st.history tokens)
        = lcpLen st.history tokens := by omega
    rw [h2]
  · simp only [prefill, if_neg hne, hsync, ne_eq, not_true_eq_false, if_false,
      if_neg hlt, if_neg hdrop]
    have h2 : st.history.length = lcpLen st.history tokens := by omega
    rw [h2]

theorem prefill_unsync (pages pcs : Nat) (st : LMState) (tokens : List Tok)
    (hne : tokens ≠ []) (hsync : st.kvTotal ≠ st.history.length) :
    prefill pages pcs st tokens =
      (if pages * page_size ≤ tokens.length then .error .contextLengthLimit
      else
        .ok ({ history := tokens,
               kvTotal := ((prefill_chunks_vm tokens pcs).map List.length).sum,
               streamMode := "output_text" },
             tokens.getLastD 0, prefill_chunks_vm tokens pcs)) := by
  have hlcp : lcpLen ([] : List Tok) tokens = 0 := by cases tokens <;> rfl
  simp only [prefill, if_neg hne, if_pos hsync, hlcp, List.drop_zero, if_neg hne]
  simp [hne]

/-- C1 counterexample: on the no-new-tokens path the claim fails.  With
in-sync history `[1, 2]`, calling `prefill([1])` — so that `[1]` shares its
full length as a common prefix with the history — succeeds but leaves
`history = [1, 2] ≠ [1]` and returns `2`, the last token of the old history,
instead of `1`, the last element of the argument. -/

theorem C1_prefill_history_counterexample :
    prefill 4 2 ⟨[1, 2], 2, "output_text"⟩ [1] =
      .ok (⟨[1, 2], 1, "output_text"⟩, 2, []) ∧
    ¬ (([1, 2] : List Tok) = [1] ∧ (2 : Tok) = 1) :=
  ⟨by rfl, by decide⟩

/-- C1 (amended): after every successful `prefill(T)` with a positive chunk
size, the backend's `total_sequence_length` equals `len T`.  When `T` is not a
prefix of the in-sync stored history (at least one new token is fed), the
stored history becomes `T` and the returned starting token is the last element
of `T`.  On the path where `T` shares its full length as a common prefix with
the previous in-sync history, however, the history is left unchanged and the
returned token is the last element of the old history. -/

theorem C1_prefill_history_kv_sync_amended
    (pages pcs : Nat) (st : LMState) (tokens : List Tok)
    (st' : LMState) (ret : Tok) (chunks : List (List Tok))
    (hpcs : 0 < pcs)
    (hok : prefill pages pcs st tokens = .ok (st', ret, chunks)) :
    st'.kvTotal = tokens.length ∧
    (¬ (st.kvTotal = st.history.length ∧ tokens <+: st.history) →
      st'.history = tokens ∧ ret = tokens.getLastD 0) ∧
    ((st.kvTotal = st.history.length ∧ tokens <+: st.history) →
      st'.history = st.history ∧ ret = st.history.getLastD 0) := by
  have hne : tokens ≠ [] := by
    intro h
    rw [h] at hok
    simp [prefill] at hok
  by_cases hsync : st.kvTotal = st.history.length
  · by_cases hpre : tokens <+: st.history
    · rw [prefill_sync_covered pages pcs st tokens hne hsync hpre] at hok
      simp only [Except.ok.injEq, Prod.mk.injEq] at hok
      obtain ⟨h1, h2, h3⟩ := hok
      subst h1
      refine ⟨rfl, fun hcon => absurd ⟨hsync, hpre⟩ hcon, fun _ => ⟨rfl, h2.symm⟩⟩
    · rw [prefill_sync_feed pages pcs st tokens hne hsync hpre] at hok
      have hlcp_lt : lcpLen st.history tokens < tokens.length := by
        have hle := lcpLen_le_right st.history tokens
        rcases Nat.lt_or_ge (lcpLen st.history tokens) tokens.length with h | h
        · exact h
        · exact absurd ((lcpLen_eq_right_iff _ _).mp (Nat.le_antisymm hle h)) hpre
      have hdrop : tokens.drop (lcpLen st.history tokens) ≠ [] := by
        intro h
        have := List.drop_eq_nil_iff.mp h
        omega
      by_cases hcap :
          pages * page_size ≤ (tokens.drop (lcpLen st.history tokens)).length
      · rw [if_pos hcap] at hok
        exact absurd hok (by simp)
      · rw [if_neg hcap] at hok
        simp only [Except.ok.injEq, Prod.mk.injEq] at hok
        obtain ⟨h1, h2, h3⟩ := hok
        subst h1
        refine ⟨?_, fun _ => ⟨rfl, ?_⟩, fun hcon => absurd hcon.2 hpre⟩
        · have hsum := prefill_chunks_vm_sum pcs hpcs (tokens.drop (lcpLen st.history tokens))
          have hdl : (tokens.drop (lcpLen st.history tokens)).length
              = tokens.length - lcpLen st.history tokens := List.length_drop _ _
          have hle := lcpLen_le_right st.history tokens
          simp only [hsum, hdl]
          omega
        · rw [← h2, getLastD_drop tokens (lcpLen st.history tokens) hdrop]
  · rw [prefill_unsync pages pcs st tokens hne hsync] at hok
    by_cases hcap : pages * page_size ≤ tokens.length
    · rw [if_pos hcap] at hok
      exact absurd hok (by simp)
    · rw [if_neg hcap] at hok
      simp only [Except.ok.injEq, Prod.mk.injEq] at hok
      obtain ⟨h1, h2, h3⟩ := hok
      subst h1
      refine ⟨by simpa using prefill_chunks_vm_sum pcs hpcs tokens,
        fun _ => ⟨rfl, h2.symm⟩, fun hcon => absurd hcon.1 hsync⟩

/-- C1 witness: the amended theorem applied to a concrete prefill of
`[3, 4, 5]` into an empty model. -/

theorem C1_prefill_history_kv_sync_amended_witness :
    (0 < 2 ∧
      prefill 4 2 ⟨[], 0, "output_text"⟩ [3, 4, 5] =
        .ok (⟨[3, 4, 5], 3, "output_text"⟩, 5, [[3, 4], [3]])) ∧
    ((⟨[3, 4, 5], 3, "output_text"⟩ : LMState).kvTotal = ([3, 4, 5] : List Tok).length ∧
     (¬ ((⟨[], 0, "output_text"⟩ : LMState).kvTotal
          = (⟨[], 0, "output_text"⟩ : LMState).history.length ∧
        ([3, 4, 5] : List Tok) <+: (⟨[], 0, "output_text"⟩ : LMState).history) →
       (⟨[3, 4, 5], 3, "output_text"⟩ : LMState).history = [3, 4, 5] ∧
       (5 : Tok) = ([3, 4, 5] : List Tok).getLastD 0) ∧
     (((⟨[], 0, "output_text"⟩ : LMState).kvTotal
          = (⟨[], 0, "output_text"⟩ : LMState).history.length ∧
        ([3, 4, 5] : List Tok) <+: (⟨[], 0, "output_text"⟩ : LMState).history) →
       (⟨[3, 4, 5], 3, "output_text"⟩ : LMState).history
          = (⟨[], 0, "output_text"⟩ : LMState).history ∧
       (5 : Tok) = (⟨[], 0, "output_text"⟩ : LMState).history.getLastD 0)) :=
  ⟨⟨by decide, by rfl⟩,
    C1_prefill_history_kv_sync_amended 4 2 ⟨[], 0, "output_text"⟩ [3, 4, 5]
      ⟨[3, 4, 5], 3, "output_text"⟩ 5 [[3, 4], [3]] (by decide) (by rfl)⟩

/-- C2: the chunk loop of `src/vm/src/tvm/language_model.cpp:316-339` copies
from the start of the whole remainder into every chunk buffer, so for
remainder `[5, 6, 7]` and a chunk size of 2 the fed chunks are
`[[5, 6], [5]]`, whose concatenation is not the remainder.  The v2
implementation (`src/v2/cpp/src/language_model.cpp:150-172`) feeds the slices
`[[5, 6], [7]]`, whose concatenation restores the remainder — which is what
the claim states. -/

theorem C2_prefill_chunk_copy_bug :
    prefill_chunks_vm [5, 6, 7] 2 = [[5, 6], [5]] ∧
    (prefill_chunks_vm [5, 6, 7] 2).flatten ≠ [5, 6, 7] ∧
    prefill_chunks_v2 [5, 6, 7] 2 = [[5, 6], [7]] ∧
    (prefill_chunks_v2 [5, 6, 7] 2).flatten = [5, 6, 7] := by
  refine ⟨by rfl, by decide, by rfl, by rfl⟩

/-- C3 counterexample: a remainder that exactly fills the remaining capacity
`num_available_pages * page_size` does not succeed.  With one available page
(capacity 16) and 16 fresh tokens, `prefill` raises `ContextLengthLimit`,
because the source compares with `>=`, not `>`. -/

theorem C3_context_limit_boundary_counterexample :
    prefill 1 2 ⟨[], 0, "output_text"⟩ (List.replicate 16 0) = .error .contextLengthLimit ∧
    (List.replicate 16 (0 : Tok)).length = 1 * page_size :=
  ⟨by rfl, by rfl⟩

/-- C3 (amended): `prefill(T)` raises `ContextLengthLimit` exactly when the
non-empty remainder past the longest common prefix is at least — not strictly
greater than — the remaining capacity `num_available_pages * page_size`; and
when `ContextLengthLimit` is raised during infer's initialization, the init
function stores `current_token = -1` with `finish_reason = "length"`, and the
first `step()` then returns a terminal output (`finished = true`) whose finish
reason is `length` and whose message carries no delta. -/

theorem C3_context_limit_amended (pages pcs : Nat) (st : LMState) (tokens : List Tok) :
    (prefill pages pcs st tokens = .error .contextLengthLimit ↔
      (tokens ≠ [] ∧
        (tokens.drop (lcpLen (if st.kvTotal = st.history.length then st.history else [])
            tokens)) ≠ [] ∧
        pages * page_size ≤
          (tokens.drop (lcpLen (if st.kvTotal = st.history.length then st.history else [])
            tokens)).length)) ∧
    (∀ ign : Bool, prefill pages pcs st tokens = .error .contextLengthLimit →
      infer_init pages pcs st tokens ign = .ok ⟨-1, "length", ign⟩ ∧
      ∀ (parse : String → Option JVal) (cfg : StepCfg) (trace : List StepEvent),
        step_fn parse cfg ⟨-1, "length", ign⟩ trace =
          some ⟨objOf [], some "length", true⟩) := by
  constructor
  · constructor
    · intro herr
      have hne : tokens ≠ [] := by
        intro h
        rw [h] at herr
        simp [prefill] at herr
      refine ⟨hne, ?_⟩
      by_cases hsync : st.kvTotal = st.history.length
      · rw [if_pos hsync]
        by_cases hpre : tokens <+: st.history
        · rw [prefill_sync_covered pages pcs st tokens hne hsync hpre] at herr
          exact absurd herr (by simp)
        · rw [prefill_sync_feed pages pcs st tokens hne hsync hpre] at herr
          by_cases hcap :
              pages * page_size ≤ (tokens.drop (lcpLen st.history tokens)).length
          · refine ⟨?_, hcap⟩
            intro h
            have hlcp_lt : lcpLen st.history tokens < tokens.length := by
              have hle := lcpLen_le_right st.history tokens
              rcases Nat.lt_or_ge (lcpLen st.history tokens) tokens.length with h' | h'
              · exact h'
              · exact absurd ((lcpLen_eq_right_iff _ _).mp (Nat.le_antisymm hle h')) hpre
            have := List.drop_eq_nil_iff.mp h
            omega
          · rw [if_neg hcap] at herr
            exact absurd herr (by simp)
      · rw [if_neg hsync]
        rw [prefill_unsync pages pcs st tokens hne hsync] at herr
        by_cases hcap : pages * page_size ≤ tokens.length
        · have hlcp : lcpLen ([] : List Tok) tokens = 0 := by cases tokens <;> rfl
          rw [hlcp, List.drop_zero]
          exact ⟨hne, hcap⟩
        · rw [if_neg hcap] at herr
          exact absurd herr (by simp)
    · rintro ⟨hne, hdrop, hcap⟩
      by_cases hsync : st.kvTotal = st.history.length
      · rw [if_pos hsync] at hdrop hcap
        by_cases hpre : tokens <+: st.history
        · exact absurd (by rw [(lcpLen_eq_right_iff _ _).mpr hpre]; simp) hdrop
        · rw [prefill_sync_feed pages pcs st tokens hne hsync hpre, if_pos hcap]
      · rw [if_neg hsync] at hdrop hcap
        have hlcp : lcpLen ([] : List Tok) tokens = 0 := by cases tokens <;> rfl
        rw [hlcp, List.drop_zero] at hdrop hcap
        rw [prefill_unsync pages pcs st tokens hne hsync, if_pos hcap]
  · intro ign herr
    refine ⟨by simp [infer_init, herr], fun parse cfg trace => by simp [step_fn]⟩

/-- C3 witness: the amended theorem exercised at one available page and a
16-token prompt. -/

theorem C3_context_limit_amended_witness :
    prefill 1 2 ⟨[], 0, "output_text"⟩ (List.replicate 16 0) = .error .contextLengthLimit ∧
    infer_init 1 2 ⟨[], 0, "output_text"⟩ (List.replicate 16 0) true = .ok ⟨-1, "length", true⟩ ∧
    step_fn parse0 cfg0 ⟨-1, "length", true⟩ [] = some ⟨objOf [], some "length", true⟩ :=
  ⟨by rfl,
    ((C3_context_limit_amended 1 2 ⟨[], 0, "output_text"⟩ (List.replicate 16 0)).2
      true (by rfl)).1,
    ((C3_context_limit_amended 1 2 ⟨[], 0, "output_text"⟩ (List.replicate 16 0)).2
      true (by rfl)).2 parse0 cfg0 []⟩

/-- C4: after a decode whose sampled token completes the `tool_call` open
indicator, the mode does switch to `tool_call`, but the freshly created
grammar matcher is assigned to the loop-local copy of the mode-table entry
(`for (auto [name, mode] : stream_modes_)` iterates by value) and discarded:
the stored table is unchanged and `get_current_grammar_matcher` still returns
nothing, so subsequent decodes are not masked.  The close-indicator revert
path, which addresses the real table through `stream_modes_.at`, does drop the
matcher and return to `output_text` as specified. -/

theorem C4_matcher_install_lost :
    decode_update_stream_mode "output_text" [("tool_call", ⟨[7], [8], true, none⟩)] [1, 7] =
      some ("tool_call", [("tool_call", ⟨[7], [8], true, none⟩)]) ∧
    get_current_grammar_matcher "tool_call" [("tool_call", ⟨[7], [8], true, none⟩)] = none ∧
    decode_update_stream_mode "tool_call" [("tool_call", ⟨[7], [8], true, some [8]⟩)] [7, 8] =
      some ("output_text", [("tool_call", ⟨[7], [8], true, none⟩)]) :=
  ⟨by rfl, by rfl, by rfl⟩

/-- C5: in `output_text` stream mode, when the detokenized token is the
end-of-tool-call marker (and not also the end-of-sequence marker, which the
source tests first), `step()` parses the aggregated tool-call string as JSON;
on success it returns a non-finished delta whose message carries
`tool_calls = [ (type: function, function: parsed) ]`; on parse failure it
returns a finished output whose message carries
`error = [ (type: text, text: Invalid tool_call created) ]` and whose finish
reason is `invalid_tool_call`. -/

theorem C5_eotc_tool_call_emission
    (parse : String → Option JVal) (cfg : StepCfg) (ign : Bool)
    (tok_str agg fr : String) (rest : List StepEvent)
    (heotc : tok_str = cfg.eotc) (hnes : tok_str ≠ cfg.eos) :
    run_step parse cfg ign (.tok "output_text" (some tok_str) :: rest) agg fr [] =
      (match parse agg with
      | some decoded =>
        some ⟨objOf [("tool_calls",
          arrOf [objOf [("type", .str "function"), ("function", decoded)]])], none, false⟩
      | none =>
        some ⟨objOf [("error", arrOf [objOf [("type", .str "text"),
          ("text", .str "Invalid tool_call created")]])], some "invalid_tool_call", true⟩) := by
  subst heotc
  cases hp : parse agg with
  | some decoded =>
    simp [run_step, step_iter, hnes, hp, insert_to_delta, insertKA]
  | none =>
    simp [run_step, step_iter, hnes, hp, insert_to_delta, insertKA]

/-- C5 witness: the theorem applied with a concrete parser and marker
configuration, on both branches of which the parser decides. -/

theorem C5_eotc_tool_call_emission_witness :
    ("</tc>" = cfg0.eotc ∧ "</tc>" ≠ cfg0.eos) ∧
    run_step parse0 cfg0 false [.tok "output_text" (some "</tc>")] "ok" "stop" [] =
      some ⟨objOf [("tool_calls",
        arrOf [objOf [("type", .str "function"), ("function", .null)]])], none, false⟩ :=
  ⟨⟨by rfl, by decide⟩, by
    have h := C5_eotc_tool_call_emission parse0 cfg0 false "</tc>" "ok" "stop" []
      (by rfl) (by decide)
    simpa [parse0] using h⟩

theorem detok_run_partition (dec : List Tok → String) (toks : List Tok) :
    ∀ stream : List Tok,
      ((detok_run dec stream toks).1.map Prod.fst).flatten ++ (detok_run dec stream toks).2
        = stream ++ toks := by
  induction toks with
  | nil => intro stream; simp [detok_run]
  | cons t ts ih =>
    intro stream
    by_cases hend : (dec (stream ++ [t])).endsWith "�"
    · have hdet : detokenize dec stream t = (stream ++ [t], none) := by
        simp [detokenize, hend]
      simp only [detok_run, hdet]
      rw [ih (stream ++ [t])]
      simp
    · have hdet : detokenize dec stream t = ([], some (dec (stream ++ [t]))) := by
        simp [detokenize, hend]
      simp only [detok_run, hdet]
      simp only [List.map_cons, List.flatten_cons, List.append_assoc]
      rw [ih []]
      simp

theorem detok_run_sound (dec : List Tok → String) (toks : List Tok) :
    ∀ (stream g : List Tok) (s : String), (g, s) ∈ (detok_run dec stream toks).1 →
      s = dec g ∧ (dec g).endsWith "�" = false := by
  induction toks with
  | nil => intro stream g s h; simp [detok_run] at h
  | cons t ts ih =>
    intro stream g s h
    by_cases hend : (dec (stream ++ [t])).endsWith "�"
    · have hdet : detokenize dec stream t = (stream ++ [t], none) := by
        simp [detokenize, hend]
      simp only [detok_run, hdet] at h
      exact ih (stream ++ [t]) g s h
    · have hdet : detokenize dec stream t = ([], some (dec (stream ++ [t]))) := by
        simp [detokenize, hend]
      simp only [detok_run, hdet, List.mem_cons] at h
      rcases h with h | h
      · obtain ⟨h1, h2⟩ := Prod.mk.injEq .. ▸ h
        subst h1
        exact ⟨h2, by simpa using hend⟩
      · exact ih [] g s h

/-- C6: `detokenize(token)` appends the token to the pending output stream
and returns nothing exactly when the decoded pending stream ends with the
Unicode replacement character; otherwise it clears the stream and returns the
decoded string.  Across any sequence of calls, the flushed token groups
concatenated with the final pending buffer reproduce the entire input — every
buffered token is flushed into exactly one returned string and none is
dropped — and each returned string is the tokenizer decoding of its group,
never ending in the replacement character.  In the step loop, a `none`
detokenization continues the inner loop with no delta emitted and no state
change. -/

theorem C6_detokenize_flush (dec : List Tok → String) (stream toks : List Tok) :
    (∀ t, detokenize dec stream t =
      (if (dec (stream ++ [t])).endsWith "�" then (stream ++ [t], none)
       else ([], some (dec (stream ++ [t]))))) ∧
    ((detok_run dec stream toks).1.map Prod.fst).flatten ++ (detok_run dec stream toks).2
      = stream ++ toks ∧
    (∀ (g : List Tok) (s : String), (g, s) ∈ (detok_run dec stream toks).1 →
      s = dec g ∧ (dec g).endsWith "�" = false) ∧
    (∀ (parse : String → Option JVal) (cfg : StepCfg) (ign : Bool) (mode : String)
        (rest : List StepEvent) (agg fr : String) (delta : List (String × JVal)),
      run_step parse cfg ign (.tok mode none :: rest) agg fr delta
        = run_step parse cfg ign rest agg fr delta) :=
  ⟨fun _ => rfl, detok_run_partition dec toks stream,
    fun g s h => detok_run_sound dec toks stream g s h,
    fun _ _ _ _ _ _ _ _ => rfl⟩

/-- C6 witness: the theorem applied to a concrete decoder that completes
every second token. -/

theorem C6_detokenize_flush_witness :
    (∀ t, detokenize dec0 [] t =
      (if (dec0 ([] ++ [t])).endsWith "�" then ([] ++ [t], none)
       else ([], some (dec0 ([] ++ [t]))))) ∧
    ((detok_run dec0 [] [1, 2, 3]).1.map Prod.fst).flatten ++ (detok_run dec0 [] [1, 2, 3]).2
      = [] ++ [1, 2, 3] ∧
    (∀ (g : List Tok) (s : String), (g, s) ∈ (detok_run dec0 [] [1, 2, 3]).1 →
      s = dec0 g ∧ (dec0 g).endsWith "�" = false) ∧
    (∀ (parse : String → Option JVal) (cfg : StepCfg) (ign : Bool) (mode : String)
        (rest : List StepEvent) (agg fr : String) (delta : List (String × JVal)),
      run_step parse cfg ign (.tok mode none :: rest) agg fr delta
        = run_step parse cfg ign rest agg fr delta) :=
  C6_detokenize_flush dec0 [] [1, 2, 3]

theorem rev_match_iff (a : List Tok) : ∀ b, rev_match a b = true ↔ a <+: b ∨ b <+: a := by
  induction a with
  | nil =>
    intro b
    simp [rev_match]
  | cons x xs ih =>
    intro b
    cases b with
    | nil => simp [rev_match]
    | cons y ys =>
      by_cases hxy : x = y
      · subst hxy
        simp [rev_match, List.cons_prefix_cons, ih ys]
      · simp only [rev_match, if_neg hxy, List.cons_prefix_cons]
        constructor
        · intro h; exact absurd h (by simp)
        · rintro (⟨h1, -⟩ | ⟨h1, -⟩)
          · exact (hxy h1).elim
          · exact (hxy h1.symm).elim

theorem check_indecator_iff (ind hist : List Tok) :
    check_indecator ind hist = true ↔ ind <:+ hist := by
  unfold check_indecator
  by_cases hlen : hist.length < ind.length
  · rw [if_pos hlen]
    constructor
    · intro h; exact absurd h (by simp)
    · intro h
      have := h.length_le
      omega
  · rw [if_neg hlen]
    rw [rev_match_iff]
    constructor
    · rintro (h | h)
      · have hle : hist.length ≤ ind.length := by
          have := h.length_le
          simpa using this
        have heq : hist.reverse = ind.reverse :=
          h.eq_of_length (by simp; omega)
        rw [← List.reverse_prefix, heq]
      · exact List.reverse_prefix.mp h
    · intro h
      exact Or.inr (List.reverse_prefix.mpr h)

theorem check_indecator_nil_ind (hist : List Tok) : check_indecator [] hist = true := by
  unfold check_indecator
  rw [if_neg (by simp)]
  cases hrev : hist.reverse <;> simp [rev_match]

theorem find_skip_first_match (hist : List Tok) :
    ∀ (pre : List (String × stream_mode_t)) (name : String) (m : stream_mode_t)
      (post : List (String × stream_mode_t)),
      name ≠ "output_text" → check_indecator m.open_indicator hist = true →
      (∀ p ∈ pre, p.1 = "output_text" ∨ check_indecator p.2.open_indicator hist = false) →
      (pre ++ (name, m) :: post).find?
          (fun p => decide (p.1 ≠ "output_text") && check_indecator p.2.open_indicator hist)
        = some (name, m) := by
  intro pre
  induction pre with
  | nil =>
    intro name m post hname hmatch _
    simp [List.find?, hname, hmatch]
  | cons p pre' ih =>
    intro name m post hname hmatch hskip
    have hp := hskip p (List.mem_cons_self p pre')
    have hpred : (decide (p.1 ≠ "output_text") && check_indecator p.2.open_indicator hist)
        = false := by
      rcases hp with h | h
      · simp [h]
      · simp [h]
    simp only [List.cons_append, List.find?_cons, hpred]
    exact ih name m post hname hmatch (fun q hq => hskip q (List.mem_cons_of_mem p hq))

/-- C10: `check_indecator` returns true exactly when the requested
indicator token sequence is a suffix of the generated-token history;
consequently an indicator that tokenizes to the empty sequence matches every
history, and a stream mode registered with an empty open indicator is
switched into as soon as the mode re-evaluation after a decode examines it
(that is, as soon as no earlier entry of the mode table has matched). -/

theorem C10_indicator_suffix_match :
    (∀ ind hist : List Tok, check_indecator ind hist = true ↔ ind <:+ hist) ∧
    (∀ (enc : String → List Tok) (open_s close_s : String) (hist : List Tok),
      enc open_s = [] →
      check_indecator (mk_stream_mode enc open_s close_s).open_indicator hist = true) ∧
    (∀ (pre : List (String × stream_mode_t)) (name : String) (m : stream_mode_t)
        (post : List (String × stream_mode_t)) (hist : List Tok),
      name ≠ "output_text" → m.open_indicator = [] →
      (∀ p ∈ pre, p.1 = "output_text" ∨ check_indecator p.2.open_indicator hist = false) →
      decode_update_stream_mode "output_text" (pre ++ (name, m) :: post) hist
        = some (name, pre ++ (name, m) :: post)) := by
  refine ⟨check_indecator_iff, ?_, ?_⟩
  · intro enc open_s close_s hist hempty
    simp only [mk_stream_mode, hempty]
    exact check_indecator_nil_ind hist
  · intro pre name m post hist hname hempty hskip
    have hmatch : check_indecator m.open_indicator hist = true := by
      rw [hempty]; exact check_indecator_nil_ind hist
    unfold decode_update_stream_mode
    rw [if_pos rfl, find_skip_first_match hist pre name m post hname hmatch hskip]

/-- C10 witness: the suffix characterization at a concrete history, and the
switch into a mode with an empty open indicator on a history that matches
nothing else. -/

theorem C10_indicator_suffix_match_witness :
    (check_indecator [2] [1, 2] = true ↔ ([2] : List Tok) <:+ [1, 2]) ∧
    decode_update_stream_mode "output_text" [("tool_call", tcmode0)] [9]
      = some ("tool_call", [("tool_call", tcmode0)]) :=
  ⟨C10_indicator_suffix_match.1 [2] [1, 2],
    C10_indicator_suffix_match.2.2 [] "tool_call" tcmode0 [] [9]
      (by decide) (by rfl) (by simp)⟩

@[simp] theorem jobj_ofList_toList : ∀ o : JObj, JObj.ofList o.toList = o
  | .nil => rfl
  | .cons k v tl => by rw [JObj.toList, JObj.ofList, jobj_ofList_toList tl]

@[simp] theorem jarr_ofList_toList : ∀ a : JArr, JArr.ofList a.toList = a
  | .nil => rfl
  | .cons v tl => by rw [JArr.toList, JArr.ofList, jarr_ofList_toList tl]

theorem pdr_msg_ok (content : String) (m : JVal) (hwf : msg_wf m = true) :
    put_default_reasoning_msg content m = .ok (pdr_step content m) := by
  cases m with
  | obj fs =>
    cases hrole : getKey? fs.toList "role" with
    | none => simp [msg_wf, hrole] at hwf
    | some v =>
      cases v with
      | str role =>
        by_cases hrass : role = "assistant"
        · subst hrass
          by_cases hcond : (containsKey fs.toList "content"
              || containsKey fs.toList "tool_calls")
              && ! containsKey fs.toList "reasoning"
          · simp [put_default_reasoning_msg, pdr_step, asObjFields, objAtStr, objAt,
              asStr, hrole, hcond, bind, Except.bind, objOf]
          · simp [put_default_reasoning_msg, pdr_step, asObjFields, objAtStr, objAt,
              asStr, hrole, hcond, bind, Except.bind, objOf]
        · simp [put_default_reasoning_msg, pdr_step, asObjFields, objAtStr, objAt,
            asStr, hrole, hrass, bind, Except.bind, objOf]
      | null => simp [msg_wf, hrole] at hwf
      | bool b => simp [msg_wf, hrole] at hwf
      | int n => simp [msg_wf, hrole] at hwf
      | arr xs => simp [msg_wf, hrole] at hwf
      | obj o => simp [msg_wf, hrole] at hwf
  | null => simp [msg_wf] at hwf
  | bool b => simp [msg_wf] at hwf
  | int n => simp [msg_wf] at hwf
  | str s => simp [msg_wf] at hwf
  | arr xs => simp [msg_wf] at hwf

theorem mapExcept_ok_of (f : JVal → Except String JVal) (g : JVal → JVal) :
    ∀ ms : List JVal, (∀ m ∈ ms, f m = .ok (g m)) → mapExcept f ms = .ok (ms.map g) := by
  intro ms
  induction ms with
  | nil => intro _; rfl
  | cons m ms ih =>
    intro h
    have hm := h m (List.mem_cons_self m ms)
    have hms := ih (fun x hx => h x (List.mem_cons_of_mem m hx))
    simp [mapExcept, hm, hms, bind, Except.bind]

/-- C7 (amended): a default reasoning entry is inserted on an assistant
message exactly when the message carries a `content` or `tool_calls` field and
no `reasoning` field — independent of `enable_reasoning`, which the pass never
consults — and the inserted default reasoning text is the pass's `content`
argument, `"\n\n"` at the call site.  Messages of other roles and assistant
messages that already carry `reasoning` are left unchanged by this pass. -/

theorem C7_default_reasoning_amended (msgs : List JVal) (content : String)
    (hwf : ∀ m ∈ msgs, msg_wf m = true) :
    put_default_reasoning (arrOf msgs) content = .ok (arrOf (msgs.map (pdr_step content))) ∧
    (∀ fs : List (String × JVal), getKey? fs "role" ≠ some (.str "assistant") →
      pdr_step content (objOf fs) = objOf fs) ∧
    (∀ fs : List (String × JVal), containsKey fs "reasoning" = true →
      pdr_step content (objOf fs) = objOf fs) ∧
    (∀ fs : List (String × JVal), getKey? fs "role" = some (.str "assistant") →
      (containsKey fs "content" || containsKey fs "tool_calls") = true →
      containsKey fs "reasoning" = false →
      pdr_step content (objOf fs)
        = objOf (insertKA fs "reasoning" (default_reasoning_value content))) := by
  refine ⟨?_, ?_, ?_, ?_⟩
  · have hmap := mapExcept_ok_of (put_default_reasoning_msg content) (pdr_step content) msgs
      (fun m hm => pdr_msg_ok content m (hwf m hm))
    simp [put_default_reasoning, arrOf, asArr, hmap, bind, Except.bind]
  · intro fs hrole
    cases hk : getKey? fs "role" with
    | none => simp [pdr_step, objOf, hk]
    | some v =>
      cases v with
      | str role =>
        have hne : role ≠ "assistant" := by
          intro h; subst h; exact hrole (by rw [← hk])
        simp [pdr_step, objOf, hk, hne]
      | null => simp [pdr_step, objOf, hk]
      | bool b => simp [pdr_step, objOf, hk]
      | int n => simp [pdr_step, objOf, hk]
      | arr xs => simp [pdr_step, objOf, hk]
      | obj o => simp [pdr_step, objOf, hk]
  · intro fs hreas
    cases hk : getKey? fs "role" with
    | none => simp [pdr_step, objOf, hk]
    | some v =>
      cases v with
      | str role => simp [pdr_step, objOf, hk, hreas]
      | null => simp [pdr_step, objOf, hk]
      | bool b => simp [pdr_step, objOf, hk]
      | int n => simp [pdr_step, objOf, hk]
      | arr xs => simp [pdr_step, objOf, hk]
      | obj o => simp [pdr_step, objOf, hk]
  · intro fs hrole hcond hreas
    simp [pdr_step, objOf, hrole, hcond, hreas]

/-- C7 counterexample: on an assistant message with content and no
reasoning, `put_default_reasoning` inserts a reasoning entry whose text is
`"\n\n"` — not the empty string — and the render pipeline applies the pass
regardless of `enable_reasoning`: `chat_normalize` yields the same result for
both flag values. -/

theorem C7_default_reasoning_counterexample :
    put_default_reasoning conv0 "\n\n" =
      .ok (arrOf [objOf [("role", .str "assistant"), ("content", arrOf [textEntry "hi"]),
        ("reasoning", default_reasoning_value "\n\n")]]) ∧
    ("\n\n" : String) ≠ "" ∧
    chat_normalize conv0 false = chat_normalize conv0 true :=
  ⟨by rfl, by decide, by rfl⟩

/-- C7 witness: the amended theorem applied to a one-message assistant
conversation. -/

theorem C7_default_reasoning_amended_witness :
    (∀ m ∈ [objOf [("role", .str "assistant"), ("content", arrOf [textEntry "hi"])]],
      msg_wf m = true) ∧
    put_default_reasoning
        (arrOf [objOf [("role", .str "assistant"), ("content", arrOf [textEntry "hi"])]])
        "\n\n"
      = .ok (arrOf ([objOf [("role", .str "assistant"),
          ("content", arrOf [textEntry "hi"])]].map (pdr_step "\n\n"))) :=
  ⟨by decide,
    (C7_default_reasoning_amended
      [objOf [("role", .str "assistant"), ("content", arrOf [textEntry "hi"])]]
      "\n\n" (by decide)).1⟩

/-- C8: the normalization run by `apply_chat_template` is exactly the five
rewrites — strip tool-call ids, inject default reasoning, melt reasoning into
content, merge consecutive text parts, collapse single-text content arrays —
composed in this fixed order before rendering; the pipeline depends only on
the conversation value (the reasoning flag does not change it); and swapping
two passes changes the result on a concrete conversation, so the order
matters.  Each rewrite is pure on the value tree: the C++ passes deep-copy
their input through the JSON codec before mutating, which this embedding
renders as plain functions. -/

theorem C8_normalization_pipeline_order :
    (∀ (conv : JVal) (b : Bool),
      chat_normalize conv b =
        (remove_tool_call_id conv >>= fun c1 =>
          put_default_reasoning c1 "\n\n" >>= fun c2 =>
            melt_reasoning c2 "<think>" "</think>\n\n" >>= fun c3 =>
              merge_text_data c3 "" >>= fun c4 => melt_content_text c4)) ∧
    (∀ (conv : JVal) (b b' : Bool), chat_normalize conv b = chat_normalize conv b') ∧
    ((remove_tool_call_id conv0 >>= fun c1 =>
        melt_reasoning c1 "<think>" "</think>\n\n" >>= fun c2 =>
          put_default_reasoning c2 "\n\n" >>= fun c3 =>
            merge_text_data c3 "" >>= fun c4 => melt_content_text c4)
      ≠ chat_normalize conv0 false) :=
  ⟨fun _ _ => rfl, fun _ _ _ => rfl, by decide⟩

theorem getKey?_insertKA_self : ∀ (fs : List (String × JVal)) (k : String) (v : JVal),
    getKey? (insertKA fs k v) k = some v := by
  intro fs k v
  induction fs with
  | nil => simp [insertKA, getKey?]
  | cons p fs ih =>
    obtain ⟨k', w⟩ := p
    by_cases hk : k' = k
    · simp [insertKA, hk, getKey?]
    · simp [insertKA, hk, getKey?, ih]

theorem mapExcept_mem (f : JVal → Except String JVal) :
    ∀ (ms ms' : List JVal), mapExcept f ms = .ok ms' →
      ∀ m' ∈ ms', ∃ m ∈ ms, f m = .ok m' := by
  intro ms
  induction ms with
  | nil => intro ms' h m' hm'; simp [mapExcept] at h; subst h; simp at hm'
  | cons m ms ih =>
    intro ms' h m' hm'
    cases hf : f m with
    | error e => rw [mapExcept, hf] at h; simp [bind, Except.bind] at h
    | ok v =>
      rw [mapExcept, hf] at h
      cases hrest : mapExcept f ms with
      | error e => rw [hrest] at h; simp [bind, Except.bind] at h
      | ok vs =>
        rw [hrest] at h
        simp [bind, Except.bind] at h
        subst h
        rcases List.mem_cons.mp hm' with h' | h'
        · exact ⟨m, List.mem_cons_self m ms, h' ▸ hf⟩
        · obtain ⟨x, hx, hfx⟩ := ih vs hrest m' h'
          exact ⟨x, List.mem_cons_of_mem m hx, hfx⟩

theorem melt_reasoning_msg_shape (bor eor : String) (m m' : JVal)
    (h : melt_reasoning_msg bor eor m = .ok m') : melted_shape m' := by
  unfold melt_reasoning_msg at h
  cases ha : asObjFields m with
  | error e => rw [ha] at h; simp [bind, Except.bind] at h
  | ok msg =>
    rw [ha] at h
    simp only [bind, Except.bind, pure, Except.pure] at h
    repeat' split at h
    all_goals
      first
        | exact Except.noConfusion h
        | exact ⟨_, _, _, (Except.ok.inj h).symm, getKey?_insertKA_self _ _ _⟩

theorem melt_reasoning_shape (conv c3 : JVal) (bor eor : String)
    (h : melt_reasoning conv bor eor = .ok c3) :
    ∃ ms : List JVal, c3 = arrOf ms ∧ ∀ m ∈ ms, melted_shape m := by
  unfold melt_reasoning at h
  cases ha : asArr conv with
  | error e => rw [ha] at h; simp [bind, Except.bind] at h
  | ok msgs =>
    rw [ha] at h
    simp only [bind, Except.bind] at h
    cases hm : mapExcept (melt_reasoning_msg bor eor) msgs with
    | error e => rw [hm] at h; exact Except.noConfusion h
    | ok msgs' =>
      rw [hm] at h
      refine ⟨msgs', (Except.ok.inj h).symm, ?_⟩
      intro m' hmem'
      obtain ⟨m, _, hf⟩ := mapExcept_mem _ msgs msgs' hm m' hmem'
      exact melt_reasoning_msg_shape bor eor m m' hf

theorem merge_go_keeps_first :
    ∀ (ds acc out : List JVal) (t : String),
      acc.getLast? = some (textEntry t) →
      merge_entries_go acc ds = .ok out →
      ∃ (t' : String) (rest' : List JVal), out = textEntry t' :: rest' := by
  intro ds
  induction ds with
  | nil =>
    intro acc out t hlast h
    unfold merge_entries_go at h
    have hout : out = acc.reverse := (Except.ok.inj h).symm
    subst hout
    have hh : acc.reverse.head? = some (textEntry t) := by
      rw [List.head?_reverse]; exact hlast
    cases hrev : acc.reverse with
    | nil => rw [hrev] at hh; simp at hh
    | cons a l =>
      rw [hrev] at hh
      simp only [List.head?_cons, Option.some.injEq] at hh
      exact ⟨t, l, by rw [hh]⟩
  | cons d ds ih =>
    intro acc out t hlast h
    cases acc with
    | nil => simp at hlast
    | cons last accRest =>
      unfold merge_entries_go at h
      simp only [bind, Except.bind] at h
      cases hdm : asObjFields d with
      | error e => simp only [hdm] at h; exact Except.noConfusion h
      | ok dm =>
        simp only [hdm] at h
        cases hlf : asObjFields last with
        | error e => simp only [hlf] at h; exact Except.noConfusion h
        | ok lastf =>
          simp only [hlf] at h
          cases hltv : objAtStr lastf "type" with
          | error e => simp only [hltv] at h; exact Except.noConfusion h
          | ok lt =>
            simp only [hltv] at h
            by_cases hltt : lt = "text"
            · rw [if_pos hltt] at h
              cases hdt : objAtStr dm "type" with
              | error e => simp only [hdt] at h; exact Except.noConfusion h
              | ok dt =>
                simp only [hdt] at h
                by_cases hdtt : dt = "text"
                · rw [if_pos hdtt] at h
                  cases hlx : objAtStr lastf "text" with
                  | error e => simp only [hlx] at h; exact Except.noConfusion h
                  | ok ltext =>
                    simp only [hlx] at h
                    cases hdx : objAtStr dm "text" with
                    | error e => simp only [hdx] at h; exact Except.noConfusion h
                    | ok dtext =>
                      simp only [hdx] at h
                      cases accRest with
                      | cons r rs =>
                        refine ih _ out t ?_ h
                        rw [List.getLast?_cons_cons]
                        rw [← List.getLast?_cons_cons (a := last)]
                        exact hlast
                      | nil =>
                        have hlt : last = textEntry t := by simpa using hlast
                        subst hlt
                        have e1 : asObjFields (textEntry t)
                            = .ok [("type", JVal.str "text"), ("text", JVal.str t)] := rfl
                        rw [e1] at hlf
                        have hlfv : lastf = [("type", JVal.str "text"), ("text", JVal.str t)] :=
                          (Except.ok.inj hlf).symm
                        refine ih _ out (ltext ++ dtext) ?_ h
                        rw [hlfv]
                        simp [insertKA, textEntry, objOf]
                · rw [if_neg hdtt] at h
                  refine ih _ out t ?_ h
                  rw [List.getLast?_cons_cons]
                  exact hlast
            · rw [if_neg hltt] at h
              refine ih _ out t ?_ h
              rw [List.getLast?_cons_cons]
              exact hlast

theorem getKey?_insertKA_ne : ∀ (fs : List (String × JVal)) (k k' : String) (v : JVal),
    k ≠ k' → getKey? (insertKA fs k v) k' = getKey? fs k' := by
  intro fs k k' v hk
  induction fs with
  | nil => simp [insertKA, getKey?, fun h : k = k' => hk h]
  | cons p fs ih =>
    obtain ⟨k0, w⟩ := p
    by_cases h0 : k0 = k
    · subst h0
      simp [insertKA, getKey?, fun h : k0 = k' => hk h]
    · simp [insertKA, h0, getKey?, ih]

theorem merge_key_preserves_other (msg msg' : List (String × JVal)) (k k' : String)
    (hk : k ≠ k') (h : merge_key msg k = .ok msg') :
    getKey? msg' k' = getKey? msg k' := by
  unfold merge_key at h
  by_cases hc : containsKey msg k
  · simp only [hc, not_true_eq_false, if_false, bind, Except.bind] at h
    cases ha : objAtArr msg k with
    | error e => simp only [ha] at h; exact Except.noConfusion h
    | ok content =>
      simp only [ha] at h
      cases hg : merge_entries_go [] content with
      | error e => simp only [hg] at h; exact Except.noConfusion h
      | ok content' =>
        simp only [hg] at h
        have : msg' = insertKA msg k (arrOf content') := (Except.ok.inj h).symm
        rw [this, getKey?_insertKA_ne msg k k' _ hk]
  · simp only [hc, not_false_eq_true, if_true] at h
    rw [(Except.ok.inj h).symm]

theorem merge_msg_shape (m m' : JVal) (hs : melted_shape m)
    (h : merge_text_data_msg m = .ok m') : melted_shape m' := by
  obtain ⟨fields, s, rest, hm, hc⟩ := hs
  subst hm
  unfold merge_text_data_msg at h
  have ha : asObjFields (objOf fields) = .ok fields := by simp [objOf, asObjFields]
  simp only [ha, bind, Except.bind] at h
  have hcc : containsKey fields "content" = true := by simp [containsKey, hc]
  have haa : objAtArr fields "content" = .ok (textEntry s :: rest) := by
    simp [objAtArr, objAt, hc, asArr, arrOf, bind, Except.bind]
  have hgo1 : ∀ out, merge_entries_go [] (textEntry s :: rest) = .ok out →
      merge_entries_go [textEntry s] rest = .ok out := by
    intro out hout
    unfold merge_entries_go at hout
    have e1 : asObjFields (textEntry s)
        = .ok [("type", JVal.str "text"), ("text", JVal.str s)] := rfl
    simp only [e1, bind, Except.bind] at hout
    simpa [objOf, textEntry] using hout
  cases hk1 : merge_key fields "content" with
  | error e => simp only [hk1] at h; exact Except.noConfusion h
  | ok msg1 =>
    simp only [hk1] at h
    cases hk2 : merge_key msg1 "reasoning" with
    | error e => simp only [hk2] at h; exact Except.noConfusion h
    | ok msg2 =>
      simp only [hk2] at h
      unfold merge_key at hk1
      simp only [hcc, not_true_eq_false, if_false, haa, bind, Except.bind] at hk1
      cases hg : merge_entries_go [] (textEntry s :: rest) with
      | error e => simp only [hg] at hk1; exact Except.noConfusion hk1
      | ok out =>
        simp only [hg] at hk1
        have hmsg1 : msg1 = insertKA fields "content" (arrOf out) :=
          (Except.ok.inj hk1).symm
        obtain ⟨t', rest', hout⟩ :=
          merge_go_keeps_first rest [textEntry s] out s (by simp) (hgo1 out hg)
        refine ⟨msg2, t', rest', (Except.ok.inj h).symm, ?_⟩
        rw [merge_key_preserves_other msg1 msg2 "reasoning" "content" (by decide) hk2,
            hmsg1, getKey?_insertKA_self, hout]

theorem merge_text_data_shape (c3 c4 : JVal) (ms3 : List JVal)
    (h3 : c3 = arrOf ms3) (hall : ∀ m ∈ ms3, melted_shape m)
    (h : merge_text_data c3 "" = .ok c4) :
    ∃ ms4 : List JVal, c4 = arrOf ms4 ∧ ∀ m ∈ ms4, melted_shape m := by
  subst h3
  unfold merge_text_data at h
  have ha : asArr (arrOf ms3) = .ok ms3 := by simp [arrOf, asArr]
  simp only [ha, bind, Except.bind] at h
  cases hm : mapExcept merge_text_data_msg ms3 with
  | error e => simp only [hm] at h; exact Except.noConfusion h
  | ok ms4 =>
    simp only [hm] at h
    refine ⟨ms4, (Except.ok.inj h).symm, ?_⟩
    intro m' hmem'
    obtain ⟨m, hmem, hf⟩ := mapExcept_mem _ ms3 ms4 hm m' hmem'
    exact merge_msg_shape m m' (hall m hmem) hf

theorem melt_content_text_msg_err (m : JVal) (hs : melted_shape m)
    (hb : has_multipart m = true) :
    melt_content_text_msg m = .error "content length != 1" := by
  obtain ⟨fields, s, rest, hm, hc⟩ := hs
  subst hm
  have hlen : (textEntry s :: rest).length ≠ 1 := by
    simp only [has_multipart, objOf, jobj_toList_ofList, hc] at hb
    simpa [arrOf] using hb
  have hrne : rest ≠ [] := by
    intro hr
    exact hlen (by simp [hr])
  unfold melt_content_text_msg
  have ha : asObjFields (objOf fields) = .ok fields := by simp [objOf, asObjFields]
  simp only [ha, bind, Except.bind, hc, arrOf, jarr_toList_ofList]
  simp [hrne]

theorem melt_content_text_msg_ok (m : JVal) (hs : melted_shape m)
    (hb : has_multipart m = false) :
    ∃ m', melt_content_text_msg m = .ok m' := by
  obtain ⟨fields, s, rest, hm, hc⟩ := hs
  subst hm
  have hrest : rest = [] := by
    simp only [has_multipart, objOf, jobj_toList_ofList, hc, arrOf,
      jarr_toList_ofList] at hb
    simpa using hb
  subst hrest
  unfold melt_content_text_msg
  have ha : asObjFields (objOf fields) = .ok fields := by simp [objOf, asObjFields]
  simp only [ha, bind, Except.bind, hc, arrOf, jarr_toList_ofList]
  simp [textEntry, objOf, containsKey, getKey?, objAtStr, objAt, asStr, bind, Except.bind]

theorem mapExcept_melt_content_err :
    ∀ ms : List JVal, (∀ m ∈ ms, melted_shape m) → ms.any has_multipart = true →
      mapExcept melt_content_text_msg ms = .error "content length != 1" := by
  intro ms
  induction ms with
  | nil => intro _ hbad; simp at hbad
  | cons m ms ih =>
    intro hall hbad
    by_cases hb : has_multipart m = true
    · have := melt_content_text_msg_err m (hall m (List.mem_cons_self m ms)) hb
      simp [mapExcept, this, bind, Except.bind]
    · have hbf : has_multipart m = false := by simpa using hb
      obtain ⟨m', hm'⟩ := melt_content_text_msg_ok m (hall m (List.mem_cons_self m ms)) hbf
      have hbad' : ms.any has_multipart = true := by
        simp only [List.any_cons, hbf, Bool.false_or] at hbad
        exact hbad
      have := ih (fun x hx => hall x (List.mem_cons_of_mem m hx)) hbad'
      simp [mapExcept, hm', this, bind, Except.bind]

theorem melt_content_text_err (ms : List JVal)
    (hall : ∀ m ∈ ms, melted_shape m) (hbad : ms.any has_multipart = true) :
    melt_content_text (arrOf ms) = .error "content length != 1" := by
  unfold melt_content_text
  have ha : asArr (arrOf ms) = .ok ms := by simp [arrOf, asArr]
  simp [ha, bind, Except.bind, mapExcept_melt_content_err ms hall hbad]

/-- C9: whenever the first four rewrite passes succeed and leave some
message with a content array whose length is not exactly 1,
`apply_chat_template` throws `content length != 1` instead of returning a
prompt — multi-part message content (for example text plus a non-text part) is
rejected.  Both the `infer` and `apply_chat_template` methods of the
`tvm_language_model` component run this same pipeline
(`chat_manager_t::apply_chat_template`). -/

theorem C9_multipart_content_rejected (conv c1 c2 c3 c4 : JVal) (b : Bool)
    (h1 : remove_tool_call_id conv = .ok c1)
    (h2 : put_default_reasoning c1 "\n\n" = .ok c2)
    (h3 : melt_reasoning c2 "<think>" "</think>\n\n" = .ok c3)
    (h4 : merge_text_data c3 "" = .ok c4)
    (hbad : has_multipart_conv c4 = true) :
    chat_normalize conv b = .error "content length != 1" := by
  obtain ⟨ms3, hc3, hall3⟩ := melt_reasoning_shape c2 c3 _ _ h3
  obtain ⟨ms4, hc4, hall4⟩ := merge_text_data_shape c3 c4 ms3 hc3 hall3 h4
  have hbad4 : ms4.any has_multipart = true := by
    rw [hc4] at hbad
    simpa [has_multipart_conv, arrOf] using hbad
  unfold chat_normalize
  simp only [h1, h2, h3, h4, bind, Except.bind]
  rw [hc4]
  exact melt_content_text_err ms4 hall4 hbad4

/-- C9 witness: a user message whose content is a text part plus an image
part survives the first four passes and is rejected by the fifth. -/

theorem C9_multipart_content_rejected_witness :
    (remove_tool_call_id conv_bad = .ok conv_bad ∧
     put_default_reasoning conv_bad "\n\n" = .ok conv_bad ∧
     melt_reasoning conv_bad "<think>" "</think>\n\n" = .ok c3bad ∧
     merge_text_data c3bad "" = .ok c4bad ∧
     has_multipart_conv c4bad = true) ∧
    chat_normalize conv_bad false = .error "content length != 1" :=
  ⟨⟨by rfl, by rfl, by rfl, by rfl, by rfl⟩,
    C9_multipart_content_rejected conv_bad conv_bad conv_bad c3bad c4bad false
      (by rfl) (by rfl) (by rfl) (by rfl) (by rfl)⟩
